import Mathlib

/-!
Verification development for the girc IRC protocol core (event codec,
IRCv3 tag codec, source grammar, built-in WHO handler, event copying).

Go strings are modelled as `List Char` (the inputs of interest are ASCII,
where Go's byte indexing and Lean's character indexing agree).  Go maps
are modelled as association lists in insertion order; Go map iteration is
modelled as iteration over that list (the serialization bound proved below
holds for every order).  Go's `nil`-vs-present distinction is modelled
with `Option`.  A Go runtime panic (index out of range) is modelled as an
explicit `panic` result constructor.
-/

set_option autoImplicit false

namespace Girc

abbrev Str := List Char

/-- `cutCRFunc` from event.go: trims CR and LF characters. -/
def cutCR (c : Char) : Bool := c == '\r' || c == '\n'

/-- `strings.TrimFunc(raw, cutCRFunc)`: removes leading and trailing
characters satisfying the predicate. -/
def trimCR (l : Str) : Str :=
  ((l.dropWhile cutCR).reverse.dropWhile cutCR).reverse

/-- `strings.IndexByte`: index of the first occurrence, `none` for Go's -1. -/
def idx? (c : Char) : Str → Option Nat
  | [] => none
  | a :: t => if a = c then some 0 else (idx? c t).map (· + 1)

/-- Go slicing `l[a:b]`. -/
def substr (l : Str) (a b : Nat) : Str := (l.take b).drop a

/-- `strings.ToUpper` (ASCII). -/
def goToUpper (l : Str) : Str := l.map Char.toUpper

/-- `strings.Split(s, sep)` for a one-character separator. -/
def goSplit (c : Char) (l : Str) : List Str := l.splitOn c

/-- `strings.Join(ps, sep)` for a one-character separator. -/
def goJoin (c : Char) (ps : List Str) : Str := List.intercalate [c] ps

/-! ## Tags (tags.go) -/

/-- `Tags` is a Go map from tag name to encoded value; modelled as an
association list in insertion order. -/
abbrev Tags := List (Str × Str)

/-- Go map assignment `t[k] = v`: overwrites an existing binding, else appends. -/
def tagsInsert (t : Tags) (k v : Str) : Tags :=
  if t.any (fun p => p.1 = k) then
    t.map (fun p => if p.1 = k then (k, v) else p)
  else t ++ [(k, v)]

/-- `ParseTags` from tags.go: split on `;`; first `=` at index ≥ 1 splits
name/value, otherwise the whole part is a key with empty value. -/
def ParseTags (raw : Str) : Tags :=
  (goSplit ';' raw).foldl
    (fun t part =>
      match idx? '=' part with
      | none => tagsInsert t part []
      | some hasValue =>
        if hasValue < 1 then tagsInsert t part []
        else if part.length < hasValue + 1 then tagsInsert t part []
        else tagsInsert t (part.take hasValue) (part.drop (hasValue + 1)))
    []

/-- `maxTagLength` from tags.go. -/
def maxTagLength : Nat := 511

/-- Loop body of `Tags.Bytes`: `current` and `max` as in the Go loop
(`current <= max` is the separator condition written in the source). -/
def tagsBytesAux : Tags → Nat → Nat → Str → Str
  | [], _, _, buffer => buffer
  | (tagName, tagValue) :: rest, current, max, buffer =>
    if buffer.length + tagName.length + tagValue.length + 2 > maxTagLength then
      buffer
    else
      let buffer := buffer ++ tagName
      let buffer := if tagValue.length > 0 then buffer ++ '=' :: tagValue else buffer
      let buffer := if current ≤ max then buffer ++ [';'] else buffer
      tagsBytesAux rest (current + 1) max buffer

/-- `Tags.Bytes` from tags.go. -/
def Tags.Bytes (t : Tags) : Str :=
  if t.length = 0 then [] else tagsBytesAux t 0 t.length []

/-- `Tags.Len` from tags.go: length of the string representation. -/
def Tags.Len (t : Tags) : Nat := (Tags.Bytes t).length

/-- `Tags.writeTo` from tags.go: writes the bytes and one space, or nothing
when the serialized form is empty. -/
def tagsWriteTo (t : Tags) : Str :=
  let b := Tags.Bytes t
  if b.length = 0 then [] else b ++ [' ']

/-- One matching step of `strings.Replacer`: try the old/new pairs in
argument order, returning the replacement and the matched length. -/
def findRep : List (Str × Str) → Str → Option (Str × Nat)
  | [], _ => none
  | (pat, rep) :: ps, s =>
    if pat ≠ [] ∧ pat.isPrefixOf s then some (rep, pat.length) else findRep ps s

/-- `strings.Replacer.Replace` (fuelled loop; the fuel is the input length,
which bounds the number of steps since every step consumes at least one
character). -/
def replaceGoF : Nat → List (Str × Str) → Str → Str
  | 0, _, s => s
  | _ + 1, _, [] => []
  | fuel + 1, prs, c :: rest =>
    match findRep prs (c :: rest) with
    | some (rep, n) => rep ++ replaceGoF fuel prs ((c :: rest).drop n)
    | none => c :: replaceGoF fuel prs rest

/-- `strings.Replacer.Replace`. -/
def replaceGo (prs : List (Str × Str)) (s : Str) : Str := replaceGoF s.length prs s

/-- `tagDecode` pairs from tags.go (encoded → decoded). -/
def tagDecodePairs : List (Str × Str) :=
  [(['\\', ':'], [';']),
   (['\\', 's'], [' ']),
   (['\\', '\\'], ['\\']),
   (['\\', 'r'], ['\r']),
   (['\\', 'n'], ['\n'])]

/-- `tagEncode` pairs from tags.go (decoded → encoded). -/
def tagEncodePairs : List (Str × Str) :=
  [([';'], ['\\', ':']),
   ([' '], ['\\', 's']),
   (['\\'], ['\\', '\\']),
   (['\r'], ['\\', 'r']),
   (['\n'], ['\\', 'n'])]

/-- `tagDecoder.Replace`. -/
def tagDecoder (s : Str) : Str := replaceGo tagDecodePairs s

/-- `tagEncoder.Replace`. -/
def tagEncoder (s : Str) : Str := replaceGo tagEncodePairs s

/-- `Tags.Get` from tags.go: the decoded value and a found flag. -/
def Tags.Get (t : Tags) (key : Str) : Option Str :=
  (t.find? (fun p => p.1 = key)).map (fun p => tagDecoder p.2)

/-- `validTag` from tags.go (byte-range checks as in the source). -/
def validTag (name : Str) : Bool :=
  if name.length < 1 then false
  else name.all (fun c =>
    ¬ ((c.toNat < 0x41 ∨ c.toNat > 0x5A) ∧ (c.toNat < 0x61 ∨ c.toNat > 0x7A) ∧
       (c.toNat < 0x2D ∨ c.toNat > 0x39) ∧ c.toNat ≠ 0x5F))

/-- The two error cases of `Tags.Set`. -/
inductive SetErr where
  | invalidName
  | tooLong
deriving DecidableEq

/-- `Tags.Set` from tags.go. -/
def Tags.Set (t : Tags) (key value : Str) : Except SetErr Tags :=
  if ¬ validTag key then .error .invalidName
  else
    let value := tagEncoder value
    if Tags.Len t + key.length + value.length + 2 > maxTagLength then .error .tooLong
    else .ok (tagsInsert t key value)

/-! ## Source (event.go) -/

structure Source where
  name : Str
  ident : Str
  host : Str
deriving DecidableEq

/-- `strings.IndexByte` with Go's `-1` for a missing byte. -/
def goIdx (c : Char) (l : Str) : Int :=
  match idx? c l with
  | none => -1
  | some n => (n : Int)

/-- `ParseSource` from event.go. -/
def ParseSource (raw : Str) : Source :=
  let user := goIdx '!' raw
  let host := goIdx '@' raw
  if 0 < user ∧ user < host then
    ⟨raw.take user.toNat, substr raw (user.toNat + 1) host.toNat, raw.drop (host.toNat + 1)⟩
  else if 0 < user then
    ⟨raw.take user.toNat, raw.drop (user.toNat + 1), []⟩
  else if 0 < host then
    ⟨raw.take host.toNat, [], raw.drop (host.toNat + 1)⟩
  else
    ⟨raw, [], []⟩

/-- `Source.Len` from event.go. -/
def Source.Len (s : Source) : Nat :=
  let length := s.name.length
  let length := if s.ident.length > 0 then 1 + length + s.ident.length else length
  if s.host.length > 0 then 1 + length + s.host.length else length

/-- `Source.writeTo` (= `Source.String`) from event.go. -/
def sourceWrite (s : Source) : Str :=
  s.name ++ (if s.ident.length > 0 then '!' :: s.ident else [])
         ++ (if s.host.length > 0 then '@' :: s.host else [])

/-- `Source.IsHostmask` from event.go. -/
def Source.IsHostmask (s : Source) : Bool :=
  s.ident.length > 0 && s.host.length > 0

/-- `Source.IsServer` from event.go. -/
def Source.IsServer (s : Source) : Bool :=
  s.ident.length ≤ 0 && s.host.length ≤ 0

/-! ## Event (event.go) -/

structure Event where
  source : Option Source
  tags : Option Tags
  command : Str
  params : List Str
  trailing : Str
  emptyTrailing : Bool
  sensitive : Bool
deriving DecidableEq

/-- Result of `ParseEvent`: a Go `nil` return is `invalid`; a Go runtime
panic (index out of range) is `panic`. -/
inductive PRes where
  | panic
  | invalid
  | ok (e : Event)
deriving DecidableEq

/-- Lines 97–121 of event.go: find the `:` trailing marker in the text after
the command and its following space (`rest` here); `raw[j+i-1]` is the space
after the command when the marker index is 0, and `rest[i-1]` otherwise.
Returns (Params, Trailing, EmptyTrailing). -/
def splitParamsTrailing (rest : Str) : List Str × Str × Bool :=
  match idx? ':' rest with
  | none => (goSplit ' ' rest, [], false)
  | some i =>
    if i = 0 then
      let tr := rest.drop 1
      ([], tr, tr.isEmpty)
    else if rest.get? (i - 1) = some ' ' then
      let tr := rest.drop (i + 1)
      (goSplit ' ' (rest.take (i - 1)), tr, tr.isEmpty)
    else
      (goSplit ' ' rest, [], false)

/-- Lines 84–121 of event.go, entered with the current value of `i` (the
source keeps whatever `i` holds at that point — it is never reset after
the tag section — so `i` can be the stale tag-space index):
`j = i + strings.IndexByte(raw[i:], eventSpace)`, where the slice
`raw[i:]` panics when `i` exceeds the remaining length; with no space
the command is `raw[i:]` upper-cased, otherwise `raw[i:j]`, and the
params/trailing split runs on the text after the space. -/
def commandStage (src : Option Source) (tags : Option Tags) (i : Nat) (raw : Str) : PRes :=
  if i > raw.length then .panic
  else
    match idx? ' ' (raw.drop i) with
    | none => .ok ⟨src, tags, goToUpper (raw.drop i), [], [], false, false⟩
    | some k =>
      let cmd := goToUpper (substr raw i (i + k))
      let pt := splitParamsTrailing (raw.drop (i + k + 1))
      .ok ⟨src, tags, cmd, pt.1, pt.2.1, pt.2.2, false⟩

/-- `ParseEvent` from event.go.  The index `i` is threaded exactly as in
the source: the tag section leaves `i` at the tag-space index of the
original string (there is no reset after `raw = raw[i+1:]`), the source
section overwrites it with its own space index plus one, and
`commandStage` consumes it. -/
def ParseEvent (raw0 : Str) : PRes :=
  let raw := trimCR raw0
  if raw.length < 2 then .invalid
  else
    let tstep : Option (Option Tags × Nat × Str) :=
      if raw.head? = some '@' then
        match idx? ' ' raw with
        | none => none
        | some i =>
          if i < 2 then none
          else some (some (ParseTags (substr raw 1 i)), i, raw.drop (i + 1))
      else some (none, 0, raw)
    match tstep with
    | none => .invalid
    | some (tags, i, raw1) =>
      -- line 69 reads `raw[0]`, which panics when the tag section consumed
      -- the whole line
      match raw1.head? with
      | none => .panic
      | some c0 =>
        if c0 = ':' then
          match idx? ' ' raw1 with
          | none => .invalid
          | some i1 =>
            if i1 < 2 then .invalid
            else commandStage (some (ParseSource (substr raw1 1 i1))) tags (i1 + 1) raw1
        else commandStage none tags i raw1

/-- `maxLength` from event.go. -/
def maxLength : Nat := 510

/-- The buffer built by `Event.Bytes` before the length cap and the CR/LF
strip: tags (via `Tags.writeTo`), `:`+source+space, command, space-joined
params, and the ` :`+trailing part. -/
def eventBytesRaw (e : Event) : Str :=
  (match e.tags with
   | none => []
   | some t => tagsWriteTo t)
  ++ (match e.source with
      | none => []
      | some s => ':' :: sourceWrite s ++ [' '])
  ++ e.command
  ++ (if e.params.length > 0 then ' ' :: goJoin ' ' e.params else [])
  ++ (if e.trailing.length > 0 || e.emptyTrailing then ' ' :: ':' :: e.trailing else [])

/-- The strip loop at the end of `Event.Bytes`: removes every `\n` and `\r`. -/
def stripCRLF (l : Str) : Str := l.filter (fun c => !(c == '\n' || c == '\r'))

/-- `Event.Bytes` from event.go: the buffer, truncated past the length
limit, with newlines and carriage returns stripped. -/
def Event.Bytes (e : Event) : Str :=
  let buffer := eventBytesRaw e
  let buffer :=
    if buffer.length > maxLength then
      match e.tags with
      | some _ => buffer.take (maxLength + maxTagLength + 1)
      | none => buffer.take maxLength
    else buffer
  stripCRLF buffer

/-- `Event.Len` from event.go. -/
def Event.Len (e : Event) : Nat :=
  (match e.tags with
   | none => 0
   | some t => Tags.Len t + 1)
  + (match e.source with
     | none => 0
     | some s => Source.Len s + 2)
  + e.command.length
  + (if e.params.length > 0 then
       e.params.length + (e.params.map List.length).sum
     else 0)
  + (if e.trailing.length > 0 || e.emptyTrailing then e.trailing.length + 2 else 0)

/-! ## Built-in WHO handler (handleWHO) -/

/-- Standard IRC numeric for a WHO reply (girc's constants file is not part
of the sources here; the numeric is the standard RPL_WHOREPLY, 352). -/
def RPL_WHOREPLY : Str := ['3', '5', '2']

/-- Standard IRC numeric for a WHOX reply (RPL_WHOSPCRPL, 354). -/
def RPL_WHOSPCRPL : Str := ['3', '5', '4']

/-- The effect `handleWHO` has on the state store: a Go panic, no mutation
(early return before any state access), or the recorded user update
(channel, ident, host, nick, account, real name). -/
inductive WhoEffect where
  | panic
  | noop
  | upd (channel ident host nick account trailing : Str)
deriving DecidableEq

/-- `handleWHO` from the built-in handlers file: WHOX replies are checked
for parameter count 7 and query tag "1"; the WHO branch reads
`e.Params[1]`, `[2]`, `[3]` and `[5]` unconditionally (a Go index panic
when Params is shorter). -/
def handleWHO (command : Str) (params : List Str) (trailing : Str) : WhoEffect :=
  if command = RPL_WHOSPCRPL then
    if params.length ≠ 7 then .noop
    else if params.get? 1 ≠ some ['1'] then .noop
    else
      match params.get? 2, params.get? 3, params.get? 4, params.get? 5, params.get? 6 with
      | some channel, some ident, some host, some nick, some account =>
        .upd channel ident host nick account trailing
      | _, _, _, _, _ => .panic
  else
    match params.get? 1, params.get? 2, params.get? 3, params.get? 5 with
    | some channel, some ident, some host, some nick =>
      .upd channel ident host nick [] trailing
    | _, _, _, _ => .panic

/-! ## Event.Copy and aliasing (event.go lines 127–151)

`Event.Copy` manipulates Go reference types: `Source` is a pointer,
`Params` a slice over a backing array, and `Tags` a map reference.  The
heap below makes those references explicit so that sharing of backing
storage between the original and the copy is observable. -/

/-- Heap of allocated Source structs, slice backing arrays, and tag maps. -/
structure Heap where
  sources : List Source
  arrays : List (List Str)
  maps : List Tags
deriving DecidableEq

/-- The Event struct as stored: `source` and `tags` are references into the
heap (`none` = Go nil), `params` is a slice header (array id, offset,
length; `none` = nil slice). -/
structure EventRef where
  source : Option Nat
  tags : Option Nat
  command : Str
  params : Option (Nat × Nat × Nat)
  trailing : Str
  emptyTrailing : Bool
  sensitive : Bool
deriving DecidableEq

def heapGetSource (h : Heap) (p : Nat) : Source := h.sources.getD p ⟨[], [], []⟩

def heapSetSource (h : Heap) (p : Nat) (s : Source) : Heap :=
  { h with sources := h.sources.set p s }

def heapGetArray (h : Heap) (a : Nat) : List Str := h.arrays.getD a []

def heapSetArray (h : Heap) (a : Nat) (v : List Str) : Heap :=
  { h with arrays := h.arrays.set a v }

def heapGetMap (h : Heap) (m : Nat) : Tags := h.maps.getD m []

/-- Read the elements a slice header denotes. -/
def sliceRead (h : Heap) : Nat × Nat × Nat → List Str
  | (a, off, n) => ((heapGetArray h a).drop off).take n

/-- Write element `i` of a slice (in-range writes only; the theorems below
only use in-range indices). -/
def sliceWrite (h : Heap) (sl : Nat × Nat × Nat) (i : Nat) (v : Str) : Heap :=
  match sl with
  | (a, off, n) =>
    if i < n then heapSetArray h a ((heapGetArray h a).set (off + i) v) else h

/-- Go's `copy(dst, src)` builtin: copies `k` elements element-wise. -/
def copyN (h : Heap) (dst src : Nat × Nat × Nat) : Nat → Heap
  | 0 => h
  | k + 1 =>
    let h' := copyN h dst src k
    sliceWrite h' dst k ((sliceRead h' src).getD k [])

/-- `Event.Copy` from event.go: `*newEvent = *e` copies the struct fields
(including the Source pointer, the Params slice header and the Tags map
reference); then `*newEvent.Source = *e.Source` writes through the shared
pointer; `copy(newEvent.Params, e.Params)` copies onto the same backing
array; only Tags is given a fresh map. -/
def eventCopy (h : Heap) (e : EventRef) : Heap × EventRef :=
  let ne := e
  let h :=
    match e.source with
    | none => h
    | some p => heapSetSource h p (heapGetSource h p)
  let h :=
    match e.params with
    | none => h
    | some sl => copyN h sl sl (min sl.2.2 sl.2.2)
  match e.tags with
  | none => (h, ne)
  | some m =>
    (⟨h.sources, h.arrays, h.maps ++ [heapGetMap h m]⟩,
     { ne with tags := some h.maps.length })

/-- `e.Source.Name` read. -/
def readSourceName (h : Heap) (e : EventRef) : Option Str :=
  e.source.map (fun p => (heapGetSource h p).name)

/-- `e.Source.Name = v` write (a handler mutating the event's source). -/
def writeSourceName (h : Heap) (e : EventRef) (v : Str) : Heap :=
  match e.source with
  | none => h
  | some p => heapSetSource h p { heapGetSource h p with name := v }

/-- `e.Params` read. -/
def readEventParams (h : Heap) (e : EventRef) : Option (List Str) :=
  e.params.map (sliceRead h)

/-- `e.Params[i] = v` write. -/
def writeEventParam (h : Heap) (e : EventRef) (i : Nat) (v : Str) : Heap :=
  match e.params with
  | none => h
  | some sl => sliceWrite h sl i v

/-- `e.Tags` read. -/
def readEventTags (h : Heap) (e : EventRef) : Option Tags :=
  e.tags.map (heapGetMap h)

/-- `e.Tags[k] = v` write. -/
def writeEventTag (h : Heap) (e : EventRef) (k v : Str) : Heap :=
  match e.tags with
  | none => h
  | some m => { h with maps := h.maps.set m (tagsInsert (heapGetMap h m) k v) }

/-! ## Claim theorems -/

set_option maxRecDepth 100000 in
/-- C2. The claim says `ParseEvent` never panics and returns nil exactly on
the stated conditions.  The code, however, panics on the input `"@a "` —
the tag section's terminating space is the last character, `raw = raw[i+1:]`
leaves the empty string, and line 69 indexes `raw[0]` — and also on
`"@abcd X"`, whose tag section *is* followed by a space at index ≥ 2:
the code never resets `i` after the tag block, so `raw[i:]` at line 85 is
a slice out of range on the short remainder.  The remaining conjuncts
evaluate the nil-returning conditions the claim lists (short input,
`@`/`:` section without a space at index ≥ 2). -/
theorem C2_parse_panics :
    ParseEvent ['@', 'a', ' '] = .panic ∧
    ParseEvent ['@', 'a', 'b', 'c', 'd', ' ', 'X'] = .panic ∧
    ParseEvent [] = .invalid ∧
    ParseEvent ['a'] = .invalid ∧
    ParseEvent ['\r', 'a', '\n'] = .invalid ∧
    ParseEvent ['@', 'a', 'b'] = .invalid ∧
    ParseEvent ['@', ' ', 'x'] = .invalid ∧
    ParseEvent [':', 'x', 'y'] = .invalid ∧
    ParseEvent [':', ' ', 'x'] = .invalid := by decide

/-- C3. The claim says a malformed WHO reply leaves the state store
unchanged and never crashes.  The WHOX branch (`RPL_WHOSPCRPL`) is indeed
guarded (wrong parameter count returns before any state access), but the
`RPL_WHOREPLY` branch reads `e.Params[1]`, `[2]`, `[3]`, `[5]` with no
length check: a WHO reply with fewer parameters panics. -/
theorem C3_who_malformed :
    handleWHO RPL_WHOREPLY [] [] = .panic ∧
    handleWHO RPL_WHOREPLY [['a'], ['b'], ['c'], ['d'], ['e']] [] = .panic ∧
    handleWHO RPL_WHOSPCRPL [] [] = .noop ∧
    handleWHO RPL_WHOSPCRPL [['a'], ['1'], ['c'], ['d'], ['e'], ['f']] [] = .noop := by
  decide

/-- C4. The claim (and the function's own doc comment) says `Event.Copy`
is a deep copy sharing no backing storage.  In the code `*newEvent = *e`
copies the Source *pointer* and the Params *slice header*; the subsequent
`*newEvent.Source = *e.Source` writes through the still-shared pointer and
`copy(newEvent.Params, e.Params)` copies a slice onto its own backing
array.  Concretely: after copying, the copy's Source reference equals the
original's; writing the copy's Source.Name or Params[0] changes what the
original reads.  Only Tags is actually duplicated (mutating the copy's
tags leaves the original's tags unchanged). -/
theorem C4_copy_aliasing :
    (eventCopy ⟨[⟨['n'], ['u'], ['h']⟩], [[['a']]], [[(['k'], ['v'])]]⟩
        ⟨some 0, some 0, ['C'], some (0, 0, 1), [], false, false⟩).2.source = some 0 ∧
    readSourceName
      (writeSourceName
        (eventCopy ⟨[⟨['n'], ['u'], ['h']⟩], [[['a']]], [[(['k'], ['v'])]]⟩
          ⟨some 0, some 0, ['C'], some (0, 0, 1), [], false, false⟩).1
        (eventCopy ⟨[⟨['n'], ['u'], ['h']⟩], [[['a']]], [[(['k'], ['v'])]]⟩
          ⟨some 0, some 0, ['C'], some (0, 0, 1), [], false, false⟩).2
        ['x'])
      ⟨some 0, some 0, ['C'], some (0, 0, 1), [], false, false⟩ = some ['x'] ∧
    readEventParams
      (writeEventParam
        (eventCopy ⟨[⟨['n'], ['u'], ['h']⟩], [[['a']]], [[(['k'], ['v'])]]⟩
          ⟨some 0, some 0, ['C'], some (0, 0, 1), [], false, false⟩).1
        (eventCopy ⟨[⟨['n'], ['u'], ['h']⟩], [[['a']]], [[(['k'], ['v'])]]⟩
          ⟨some 0, some 0, ['C'], some (0, 0, 1), [], false, false⟩).2
        0 ['z'])
      ⟨some 0, some 0, ['C'], some (0, 0, 1), [], false, false⟩ = some [['z']] ∧
    readEventTags
      (writeEventTag
        (eventCopy ⟨[⟨['n'], ['u'], ['h']⟩], [[['a']]], [[(['k'], ['v'])]]⟩
          ⟨some 0, some 0, ['C'], some (0, 0, 1), [], false, false⟩).1
        (eventCopy ⟨[⟨['n'], ['u'], ['h']⟩], [[['a']]], [[(['k'], ['v'])]]⟩
          ⟨some 0, some 0, ['C'], some (0, 0, 1), [], false, false⟩).2
        ['k'] ['w'])
      ⟨some 0, some 0, ['C'], some (0, 0, 1), [], false, false⟩ = some [(['k'], ['v'])] := by
  decide

/-- C1 counterexample. Serializing an event that carries tags does not
re-parse to the same tag map: `Event.Bytes` never writes the `@` tag
prefix (and `Tags.Bytes` appends `;` after the last tag), so the serialized
form of `{Tags: {"a":"b"}, Command: "C"}` is `"a=b; C"`, which re-parses
with no tags at all and command `"A=B;"`. -/
theorem C1_counterexample :
    Event.Bytes ⟨none, some [(['a'], ['b'])], ['C'], [], [], false, false⟩ =
      ['a', '=', 'b', ';', ' ', 'C'] ∧
    ParseEvent (Event.Bytes ⟨none, some [(['a'], ['b'])], ['C'], [], [], false, false⟩) =
      .ok ⟨none, none, ['A', '=', 'B', ';'], [['C']], [], false, false⟩ ∧
    (none : Option Tags) ≠ some [(['a'], ['b'])] := by decide

set_option maxRecDepth 100000 in
/-- C7 counterexample. The claim says `Tags.Set` errors (only) when adding
the encoded pair would push the encoded tag section past the 511-octet
ceiling, and otherwise stores.  The code's pre-check always charges
`len(key)+len(value)+2` octets, but a valueless key encodes as just
`key;`: with an existing encoded length of 509, adding key `"b"` with an
empty value yields an encoded section of exactly 511 ≤ 511, yet `Set`
rejects it. -/
theorem C7_counterexample :
    Tags.Set [(['a'], List.replicate 506 'x')] ['b'] [] = .error .tooLong ∧
    Tags.Len [(['a'], List.replicate 506 'x')] = 509 ∧
    Tags.Len [(['a'], List.replicate 506 'x')] + (['b'] ++ [';']).length ≤ maxTagLength := by
  refine ⟨rfl, by decide, by decide⟩

/-- C10 counterexample. The claim says `Event.Len` equals the length of
`Event.Bytes` for every event.  For an event with a non-nil but empty tag
map, `Len` adds `Tags.Len()+1 = 1` for the tag section while `Bytes`
writes nothing for it: `{Tags: Tags{}, Command: "A"}` has `Len` 2 but
serializes to 1 octet. -/
theorem C10_counterexample :
    Event.Len ⟨none, some [], ['A'], [], [], false, false⟩ = 2 ∧
    (Event.Bytes ⟨none, some [], ['A'], [], [], false, false⟩).length = 1 ∧
    Event.Len ⟨none, some [], ['A'], [], [], false, false⟩ ≠
      (Event.Bytes ⟨none, some [], ['A'], [], [], false, false⟩).length := by decide

/-! ## Replacer lemmas and C8 -/

theorem findRep_pos {prs : List (Str × Str)} {s rep : Str} {n : Nat}
    (h : findRep prs s = some (rep, n)) : 1 ≤ n := by
  induction prs with
  | nil => simp [findRep] at h
  | cons pr ps ih =>
    obtain ⟨pat, rp⟩ := pr
    simp only [findRep] at h
    split at h
    · rename_i hc
      obtain ⟨h1, -⟩ := hc
      obtain ⟨-, rfl⟩ := Prod.mk.injEq .. ▸ Option.some.inj h
      exact Nat.one_le_iff_ne_zero.mpr (by simpa [List.length_eq_zero] using h1)
    · exact ih h

theorem replaceGoF_congr {prs : List (Str × Str)} :
    ∀ (fuel fuel' : Nat) (s : Str), s.length ≤ fuel → s.length ≤ fuel' →
      replaceGoF fuel prs s = replaceGoF fuel' prs s := by
  intro fuel
  induction fuel with
  | zero =>
    intro fuel' s hs hs'
    have : s = [] := List.length_eq_zero.mp (Nat.le_zero.mp hs)
    subst this
    cases fuel' <;> rfl
  | succ fuel ih =>
    intro fuel' s hs hs'
    cases s with
    | nil => cases fuel' <;> rfl
    | cons c rest =>
      simp only [List.length_cons] at hs hs'
      cases fuel' with
      | zero => omega
      | succ fuel' =>
        simp only [replaceGoF]
        cases hfr : findRep prs (c :: rest) with
        | none =>
          rw [ih fuel' rest (by omega) (by omega)]
        | some rn =>
          obtain ⟨rep, n⟩ := rn
          have hn : 1 ≤ n := findRep_pos hfr
          show rep ++ replaceGoF fuel prs ((c :: rest).drop n) =
            rep ++ replaceGoF fuel' prs ((c :: rest).drop n)
          rw [ih fuel' _ (by simp only [List.length_drop, List.length_cons]; omega)
            (by simp only [List.length_drop, List.length_cons]; omega)]

theorem replaceGo_cons_none {prs : List (Str × Str)} {c : Char} {rest : Str}
    (h : findRep prs (c :: rest) = none) :
    replaceGo prs (c :: rest) = c :: replaceGo prs rest := by
  simp only [replaceGo, List.length_cons, replaceGoF, h]

theorem replaceGo_cons_some {prs : List (Str × Str)} {c : Char} {rest rep : Str} {n : Nat}
    (h : findRep prs (c :: rest) = some (rep, n)) :
    replaceGo prs (c :: rest) = rep ++ replaceGo prs ((c :: rest).drop n) := by
  have hn : 1 ≤ n := findRep_pos h
  simp only [replaceGo, List.length_cons, replaceGoF, h]
  congr 1
  exact replaceGoF_congr _ _ _ (by simp only [List.length_drop, List.length_cons]; omega)
    (Nat.le_refl _)

theorem findRep_enc_semi (rest : Str) :
    findRep tagEncodePairs (';' :: rest) = some (['\\', ':'], 1) := by
  simp [findRep, tagEncodePairs, List.isPrefixOf]

theorem findRep_enc_sp (rest : Str) :
    findRep tagEncodePairs (' ' :: rest) = some (['\\', 's'], 1) := by
  simp [findRep, tagEncodePairs, List.isPrefixOf]

theorem findRep_enc_bs (rest : Str) :
    findRep tagEncodePairs ('\\' :: rest) = some (['\\', '\\'], 1) := by
  simp [findRep, tagEncodePairs, List.isPrefixOf]

theorem findRep_enc_cr (rest : Str) :
    findRep tagEncodePairs ('\r' :: rest) = some (['\\', 'r'], 1) := by
  simp [findRep, tagEncodePairs, List.isPrefixOf]

theorem findRep_enc_lf (rest : Str) :
    findRep tagEncodePairs ('\n' :: rest) = some (['\\', 'n'], 1) := by
  simp [findRep, tagEncodePairs, List.isPrefixOf]

theorem findRep_enc_other {c : Char} (rest : Str) (h1 : ';' ≠ c) (h2 : ' ' ≠ c)
    (h3 : '\\' ≠ c) (h4 : '\r' ≠ c) (h5 : '\n' ≠ c) :
    findRep tagEncodePairs (c :: rest) = none := by
  simp [findRep, tagEncodePairs, List.isPrefixOf, h1, h2, h3, h4, h5]

theorem findRep_dec_semi (rest : Str) :
    findRep tagDecodePairs ('\\' :: ':' :: rest) = some ([';'], 2) := by
  simp [findRep, tagDecodePairs, List.isPrefixOf]

theorem findRep_dec_sp (rest : Str) :
    findRep tagDecodePairs ('\\' :: 's' :: rest) = some ([' '], 2) := by
  simp [findRep, tagDecodePairs, List.isPrefixOf]

theorem findRep_dec_bs (rest : Str) :
    findRep tagDecodePairs ('\\' :: '\\' :: rest) = some (['\\'], 2) := by
  simp [findRep, tagDecodePairs, List.isPrefixOf]

theorem findRep_dec_cr (rest : Str) :
    findRep tagDecodePairs ('\\' :: 'r' :: rest) = some (['\r'], 2) := by
  simp [findRep, tagDecodePairs, List.isPrefixOf]

theorem findRep_dec_lf (rest : Str) :
    findRep tagDecodePairs ('\\' :: 'n' :: rest) = some (['\n'], 2) := by
  simp [findRep, tagDecodePairs, List.isPrefixOf]

theorem findRep_dec_other {c : Char} (rest : Str) (h : '\\' ≠ c) :
    findRep tagDecodePairs (c :: rest) = none := by
  simp [findRep, tagDecodePairs, List.isPrefixOf, h]

/-- C8. Tag value escaping is bijective on every string: decoding the
encoding (the ordered replacement pairs of tags.go, applied by `Set` on
store and `Get` on retrieval) is the identity.  This covers in particular
strings containing `;`, space, backslash, CR and LF. -/
theorem C8_escape_bijective (s : Str) : tagDecoder (tagEncoder s) = s := by
  unfold tagDecoder tagEncoder
  induction s with
  | nil => rfl
  | cons c rest ih =>
    by_cases h1 : c = ';'
    · subst h1
      rw [replaceGo_cons_some (findRep_enc_semi rest)]
      simpa [replaceGo_cons_some (findRep_dec_semi (replaceGo tagEncodePairs rest))] using ih
    by_cases h2 : c = ' '
    · subst h2
      rw [replaceGo_cons_some (findRep_enc_sp rest)]
      simpa [replaceGo_cons_some (findRep_dec_sp (replaceGo tagEncodePairs rest))] using ih
    by_cases h3 : c = '\\'
    · subst h3
      rw [replaceGo_cons_some (findRep_enc_bs rest)]
      simpa [replaceGo_cons_some (findRep_dec_bs (replaceGo tagEncodePairs rest))] using ih
    by_cases h4 : c = '\r'
    · subst h4
      rw [replaceGo_cons_some (findRep_enc_cr rest)]
      simpa [replaceGo_cons_some (findRep_dec_cr (replaceGo tagEncodePairs rest))] using ih
    by_cases h5 : c = '\n'
    · subst h5
      rw [replaceGo_cons_some (findRep_enc_lf rest)]
      simpa [replaceGo_cons_some (findRep_dec_lf (replaceGo tagEncodePairs rest))] using ih
    · rw [replaceGo_cons_none (findRep_enc_other rest (fun h => h1 h.symm) (fun h => h2 h.symm)
        (fun h => h3 h.symm) (fun h => h4 h.symm) (fun h => h5 h.symm))]
      rw [replaceGo_cons_none (findRep_dec_other (replaceGo tagEncodePairs rest)
        (fun h => h3 h.symm))]
      exact congrArg (c :: ·) ih

/-! ## List and string helper lemmas -/

theorem idx?_eq_none_iff {c : Char} {l : Str} : idx? c l = none ↔ c ∉ l := by
  induction l with
  | nil => simp [idx?]
  | cons a t ih =>
    by_cases h : a = c
    · subst h
      simp [idx?]
    · simp only [idx?, if_neg h, Option.map_eq_none', List.mem_cons, not_or, ih]
      constructor
      · exact fun hm => ⟨fun he => h he.symm, hm⟩
      · exact fun hm => hm.2

theorem idx?_append_cons {c : Char} (b t : Str) (h : c ∉ b) :
    idx? c (b ++ c :: t) = some b.length := by
  induction b with
  | nil => simp [idx?]
  | cons a b ih =>
    have ha : a ≠ c := fun he => h (he ▸ List.mem_cons_self a b)
    have hb : c ∉ b := fun hm => h (List.mem_cons_of_mem a hm)
    simp [idx?, if_neg ha, ih hb]

theorem idx?_spec {c : Char} {l : Str} {n : Nat} (h : idx? c l = some n) :
    c ∉ l.take n ∧ l.get? n = some c ∧ n < l.length := by
  induction l generalizing n with
  | nil => simp [idx?] at h
  | cons a t ih =>
    by_cases ha : a = c
    · subst ha
      simp [idx?] at h
      subst h
      simp
    · simp only [idx?, if_neg ha, Option.map_eq_some'] at h
      obtain ⟨m, hm, rfl⟩ := h
      obtain ⟨h1, h2, h3⟩ := ih hm
      refine ⟨?_, by simpa using h2, by simpa using h3⟩
      simp only [List.take_succ_cons, List.mem_cons, not_or]
      exact ⟨fun he => ha he.symm, h1⟩

theorem get?_append_cons (b : Str) (x : Char) (t : Str) :
    (b ++ x :: t).get? b.length = some x := by
  rw [List.get?_append_right (Nat.le_refl _)]
  simp

theorem drop_append_cons (b : Str) (x : Char) (t : Str) :
    (b ++ x :: t).drop (b.length + 1) = t := by
  have : b ++ x :: t = (b ++ [x]) ++ t := by simp
  rw [this, show b.length + 1 = (b ++ [x]).length by simp, List.drop_left]

theorem trimCR_eq_self {l : Str} (h : ∀ c ∈ l, cutCR c = false) : trimCR l = l := by
  have h1 : l.dropWhile cutCR = l := by
    rw [List.dropWhile_eq_self_iff]
    intro hl
    have hm := List.get_mem l 0 hl
    rw [h _ hm]
    simp
  have h2 : l.reverse.dropWhile cutCR = l.reverse := by
    rw [List.dropWhile_eq_self_iff]
    intro hl
    have hm := List.get_mem l.reverse 0 hl
    rw [h _ (List.mem_reverse.mp hm)]
    simp
  rw [trimCR, h1, h2, List.reverse_reverse]

theorem stripCRLF_eq_self {l : Str} (h : ∀ c ∈ l, cutCR c = false) : stripCRLF l = l := by
  rw [stripCRLF, List.filter_eq_self]
  intro a ha
  have := h a ha
  simp only [cutCR, Bool.or_eq_false_iff, beq_eq_false_iff_ne, ne_eq] at this
  simp [this.1, this.2]

theorem goJoin_singleton (c : Char) (p : Str) : goJoin c [p] = p := by
  simp [goJoin, List.intercalate]

theorem goJoin_cons₂ (c : Char) (p q : Str) (r : List Str) :
    goJoin c (p :: q :: r) = p ++ c :: goJoin c (q :: r) := by
  simp [goJoin, List.intercalate, List.intersperse]

theorem mem_goJoin {x c : Char} {ps : List Str} (h : x ∈ goJoin c ps) :
    x = c ∨ ∃ p ∈ ps, x ∈ p := by
  induction ps with
  | nil => simp [goJoin, List.intercalate] at h
  | cons p r ih =>
    cases r with
    | nil =>
      rw [goJoin_singleton] at h
      exact Or.inr ⟨p, by simp, h⟩
    | cons q r' =>
      rw [goJoin_cons₂] at h
      rcases List.mem_append.mp h with hp | hr
      · exact Or.inr ⟨p, by simp, hp⟩
      · rcases List.mem_cons.mp hr with rfl | hr'
        · exact Or.inl rfl
        · rcases ih hr' with h1 | ⟨p', hp', hx⟩
          · exact Or.inl h1
          · exact Or.inr ⟨p', List.mem_cons_of_mem _ hp', hx⟩

theorem not_mem_goJoin {x c : Char} {ps : List Str} (hx : x ≠ c)
    (h : ∀ p ∈ ps, x ∉ p) : x ∉ goJoin c ps :=
  fun hm => (mem_goJoin hm).elim (fun he => hx he) (fun ⟨p, hp, hxp⟩ => h p hp hxp)

theorem length_goJoin {c : Char} {ps : List Str} (h : ps ≠ []) :
    (goJoin c ps).length = (ps.map List.length).sum + (ps.length - 1) := by
  induction ps with
  | nil => exact absurd rfl h
  | cons p r ih =>
    cases r with
    | nil => simp [goJoin_singleton]
    | cons q r' =>
      rw [goJoin_cons₂]
      simp only [List.length_append, List.length_cons, ih (by simp), List.map_cons,
        List.sum_cons]
      omega

theorem goSplit_goJoin {c : Char} {ps : List Str} (h : ∀ p ∈ ps, c ∉ p) (hne : ps ≠ []) :
    goSplit c (goJoin c ps) = ps :=
  List.splitOn_intercalate ps c h hne

theorem takeWhile_eq_self_of_not_mem {c : Char} {l : Str} (h : c ∉ l) :
    l.takeWhile (· != c) = l := by
  induction l with
  | nil => rfl
  | cons a t ih =>
    have ha : a ≠ c := fun he => h (he ▸ List.mem_cons_self a t)
    have ht : c ∉ t := fun hm => h (List.mem_cons_of_mem a hm)
    simp [List.takeWhile_cons, ha, ih ht]

theorem takeWhile_eq_take_idx? {c : Char} {l : Str} {n : Nat} (h : idx? c l = some n) :
    l.takeWhile (· != c) = l.take n := by
  induction l generalizing n with
  | nil => simp [idx?] at h
  | cons a t ih =>
    by_cases ha : a = c
    · subst ha
      simp [idx?] at h
      subst h
      simp [List.takeWhile_cons]
    · simp only [idx?, if_neg ha, Option.map_eq_some'] at h
      obtain ⟨m, hm, rfl⟩ := h
      simp [List.takeWhile_cons, ha, ih hm]

/-! ## C5: trailing-marker recognition -/

/-- C5. Trailing-marker recognition, for the text after the command and its
following space.  Writing that text as `b ++ ':' :: t` where `b` is
colon-free (so the `:` shown is the first one, the one the parser's
forward scan finds): the `:` is treated as the trailing marker iff it is
the first character (`b = []`) or is immediately preceded by a space
(`b.getLast? = some ' '`).  When it is, everything after it becomes
Trailing (with EmptyTrailing set iff Trailing is empty) and the text
before it minus the separating space is split on spaces into Params; when
it is not (an embedded `:` inside a middle parameter), and likewise when
there is no `:` at all (the second conjunct), the whole remainder is split
on spaces into Params. -/
theorem C5_trailing_marker (b t : Str) (hb : ':' ∉ b) :
    (splitParamsTrailing (b ++ ':' :: t) =
      if b = [] ∨ b.getLast? = some ' ' then
        ((if b = [] then [] else goSplit ' ' b.dropLast), t, t.isEmpty)
      else (goSplit ' ' (b ++ ':' :: t), [], false)) ∧
    splitParamsTrailing b = (goSplit ' ' b, [], false) := by
  constructor
  · rw [splitParamsTrailing, idx?_append_cons b t hb]
    by_cases hbe : b = []
    · subst hbe
      simp
    · have hlen : 0 < b.length := List.length_pos.mpr hbe
      have hne : ¬ (b.length = 0) := by omega
      simp only [hne, if_false, hbe, false_or]
      have hget : (b ++ ':' :: t).get? (b.length - 1) = b.getLast? := by
        rw [List.get?_append (by omega), List.getLast?_eq_get?]
      by_cases hsp : b.getLast? = some ' '
      · rw [if_pos (by rw [hget, hsp]), if_pos hsp]
        rw [List.take_append_of_le_length (by omega), ← List.dropLast_eq_take]
        have : b.length + 1 = b.length + 1 := rfl
        rw [drop_append_cons b ':' t]
      · rw [if_neg (by rw [hget]; exact hsp), if_neg hsp]
  · rw [splitParamsTrailing, idx?_eq_none_iff.mpr hb]

/-- Witness for C5 at `b = "a "`, `t = "x"` (the text `"a :x"`). -/
theorem C5_trailing_marker_witness :
    (':' ∉ (['a', ' '] : Str)) ∧
    (splitParamsTrailing (['a', ' '] ++ ':' :: ['x']) =
      if (['a', ' '] : Str) = [] ∨ (['a', ' '] : Str).getLast? = some ' ' then
        ((if (['a', ' '] : Str) = [] then [] else goSplit ' ' (['a', ' '] : Str).dropLast),
          ['x'], (['x'] : Str).isEmpty)
      else (goSplit ' ' (['a', ' '] ++ ':' :: ['x']), [], false)) ∧
    splitParamsTrailing ['a', ' '] = (goSplit ' ' ['a', ' '], [], false) :=
  ⟨by decide, (C5_trailing_marker ['a', ' '] ['x'] (by decide)).1,
    (C5_trailing_marker ['a', ' '] ['x'] (by decide)).2⟩

/-! ## C9: source grammar -/

theorem goIdx_not_mem {c : Char} {l : Str} (h : c ∉ l) : goIdx c l = -1 := by
  rw [goIdx, idx?_eq_none_iff.mpr h]

theorem goIdx_append_cons {c : Char} (b t : Str) (h : c ∉ b) :
    goIdx c (b ++ c :: t) = (b.length : Int) := by
  rw [goIdx, idx?_append_cons b t h]

theorem parseSource_nuh (n u h : Str) (hn : n ≠ []) (hn1 : '!' ∉ n) (hn2 : '@' ∉ n)
    (hu : '@' ∉ u) : ParseSource (n ++ '!' :: u ++ '@' :: h) = ⟨n, u, h⟩ := by
  have hnl : 0 < n.length := List.length_pos.mpr hn
  rw [show n ++ '!' :: u ++ '@' :: h = n ++ ('!' :: (u ++ '@' :: h)) from by simp]
  have hw : n ++ ('!' :: (u ++ '@' :: h)) = (n ++ '!' :: u) ++ '@' :: h := by simp
  have hBlen : (n ++ '!' :: u).length = n.length + 1 + u.length := by
    simp only [List.length_append, List.length_cons]
    omega
  have e1 : goIdx '!' (n ++ ('!' :: (u ++ '@' :: h))) = (n.length : Int) :=
    goIdx_append_cons n _ hn1
  have e2 : goIdx '@' (n ++ ('!' :: (u ++ '@' :: h))) = (((n ++ '!' :: u).length : Nat) : Int) := by
    rw [hw]
    exact goIdx_append_cons _ h (by
      simp only [List.mem_append, List.mem_cons, not_or]
      exact ⟨hn2, by decide, hu⟩)
  have hcond : (0 : Int) < (n.length : Int) ∧
      (n.length : Int) < ((n ++ '!' :: u).length : Int) := by
    constructor
    · exact_mod_cast hnl
    · rw [hBlen]
      exact_mod_cast (by omega : n.length < n.length + 1 + u.length)
  rw [ParseSource]
  simp only [e1, e2]
  rw [if_pos hcond]
  congr 1
  · rw [Int.toNat_natCast]
    exact List.take_left n _
  · rw [substr, Int.toNat_natCast, Int.toNat_natCast, hw, List.take_left]
    exact drop_append_cons n '!' u
  · rw [Int.toNat_natCast, hw]
    exact drop_append_cons _ '@' h

theorem parseSource_nh (n h : Str) (hn : n ≠ []) (hn1 : '!' ∉ n) (hn2 : '@' ∉ n)
    (hh : '!' ∉ h) : ParseSource (n ++ '@' :: h) = ⟨n, [], h⟩ := by
  have hnl : 0 < n.length := List.length_pos.mpr hn
  have e1 : goIdx '!' (n ++ '@' :: h) = -1 :=
    goIdx_not_mem (by
      simp only [List.mem_append, List.mem_cons, not_or]
      exact ⟨hn1, by decide, hh⟩)
  have e2 : goIdx '@' (n ++ '@' :: h) = (n.length : Int) := goIdx_append_cons n h hn2
  rw [ParseSource]
  simp only [e1, e2]
  rw [if_neg (by omega), if_neg (by omega),
    if_pos (by exact_mod_cast hnl)]
  congr 1
  · rw [Int.toNat_natCast, List.take_append_of_le_length (Nat.le_refl _), List.take_length]
  · rw [Int.toNat_natCast, drop_append_cons]

theorem parseSource_nu (n u : Str) (hn : n ≠ []) (hn1 : '!' ∉ n) (hn2 : '@' ∉ n)
    (hu : '@' ∉ u) : ParseSource (n ++ '!' :: u) = ⟨n, u, []⟩ := by
  have hnl : 0 < n.length := List.length_pos.mpr hn
  have e1 : goIdx '!' (n ++ '!' :: u) = (n.length : Int) := goIdx_append_cons n u hn1
  have e2 : goIdx '@' (n ++ '!' :: u) = -1 :=
    goIdx_not_mem (by
      simp only [List.mem_append, List.mem_cons, not_or]
      exact ⟨hn2, by decide, hu⟩)
  rw [ParseSource]
  simp only [e1, e2]
  rw [if_neg (by omega), if_pos (by exact_mod_cast hnl)]
  congr 1
  · rw [Int.toNat_natCast, List.take_append_of_le_length (Nat.le_refl _), List.take_length]
  · rw [Int.toNat_natCast, drop_append_cons]

theorem parseSource_plain (n : Str) (hn1 : '!' ∉ n) (hn2 : '@' ∉ n) :
    ParseSource n = ⟨n, [], []⟩ := by
  have e1 : goIdx '!' n = -1 := goIdx_not_mem hn1
  have e2 : goIdx '@' n = -1 := goIdx_not_mem hn2
  rw [ParseSource]
  simp only [e1, e2]
  rw [if_neg (by omega), if_neg (by omega), if_neg (by omega)]

/-- `ParseSource` is a left inverse of source serialization, under the
grammar-compatible field constraints. -/
theorem parseSource_write (s : Source) (hn : s.name ≠ []) (h1 : '!' ∉ s.name)
    (h2 : '@' ∉ s.name) (h3 : '@' ∉ s.ident) (h4 : '!' ∉ s.host) :
    ParseSource (sourceWrite s) = s := by
  obtain ⟨n, u, h⟩ := s
  simp only at hn h1 h2 h3 h4
  rw [sourceWrite]
  by_cases hu : u.length > 0 <;> by_cases hh : h.length > 0
  · simp only [hu, hh, if_true, reduceIte]
    exact parseSource_nuh n u h hn h1 h2 h3
  · have h0 : h = [] := by
      simpa [List.length_eq_zero] using hh
    subst h0
    simp only [hu, if_true, reduceIte, List.length_nil, List.append_nil, gt_iff_lt,
      Nat.lt_irrefl, if_false]
    exact parseSource_nu n u hn h1 h2 h3
  · have h0 : u = [] := by
      simpa [List.length_eq_zero] using hu
    subst h0
    simp only [hh, if_true, reduceIte, List.length_nil, gt_iff_lt,
      Nat.lt_irrefl, if_false]
    rw [show (n ++ [] ++ '@' :: h : Str) = n ++ '@' :: h from by simp]
    exact parseSource_nh n h hn h1 h2 h4
  · have h0 : h = [] := by
      simpa [List.length_eq_zero] using hh
    have h0' : u = [] := by
      simpa [List.length_eq_zero] using hu
    subst h0
    subst h0'
    simp only [List.length_nil, gt_iff_lt, Nat.lt_irrefl, if_false, List.append_nil]
    exact parseSource_plain n h1 h2

/-- C9. The source grammar: `ParseSource` splits on the first `!` and the
first `@` — with `n` a non-empty nick free of both separators, `u` an
ident free of `@` and `h` a host free of `!`, the four grammar shapes
parse to the expected fields — and `IsHostmask` holds exactly when both
Ident and Host are non-empty while `IsServer` holds exactly when both are
empty. -/
theorem C9_source_grammar (n u h : Str) (hn : n ≠ []) (hn1 : '!' ∉ n) (hn2 : '@' ∉ n)
    (hu : '@' ∉ u) (hh : '!' ∉ h) :
    ParseSource (n ++ '!' :: u ++ '@' :: h) = ⟨n, u, h⟩ ∧
    ParseSource (n ++ '@' :: h) = ⟨n, [], h⟩ ∧
    ParseSource (n ++ '!' :: u) = ⟨n, u, []⟩ ∧
    ParseSource n = ⟨n, [], []⟩ ∧
    (∀ s : Source, Source.IsHostmask s = true ↔ (s.ident ≠ [] ∧ s.host ≠ [])) ∧
    (∀ s : Source, Source.IsServer s = true ↔ (s.ident = [] ∧ s.host = [])) := by
  refine ⟨parseSource_nuh n u h hn hn1 hn2 hu, parseSource_nh n h hn hn1 hn2 hh,
    parseSource_nu n u hn hn1 hn2 hu, parseSource_plain n hn1 hn2, ?_, ?_⟩
  · intro s
    simp [Source.IsHostmask, List.length_pos]
  · intro s
    simp [Source.IsServer, Nat.le_zero, List.length_eq_zero]

/-- Witness for C9 at `"nick" / "user" / "host"`. -/
theorem C9_source_grammar_witness :
    ((['n', 'i', 'c', 'k'] : Str) ≠ [] ∧ '!' ∉ (['n', 'i', 'c', 'k'] : Str) ∧
     '@' ∉ (['n', 'i', 'c', 'k'] : Str) ∧ '@' ∉ (['u', 's', 'e', 'r'] : Str) ∧
     '!' ∉ (['h', 'o', 's', 't'] : Str)) ∧
    ParseSource (['n', 'i', 'c', 'k'] ++ '!' :: ['u', 's', 'e', 'r'] ++ '@' :: ['h', 'o', 's', 't']) =
      ⟨['n', 'i', 'c', 'k'], ['u', 's', 'e', 'r'], ['h', 'o', 's', 't']⟩ :=
  ⟨⟨by decide, by decide, by decide, by decide, by decide⟩,
    (C9_source_grammar ['n', 'i', 'c', 'k'] ['u', 's', 'e', 'r'] ['h', 'o', 's', 't']
      (by decide) (by decide) (by decide) (by decide) (by decide)).1⟩

/-! ## C7: Tags.Set errors and the serialization ceiling -/

theorem tagsBytesAux_le (rest : Tags) : ∀ (cur mx : Nat) (buf : Str),
    buf.length ≤ maxTagLength → (tagsBytesAux rest cur mx buf).length ≤ maxTagLength := by
  induction rest with
  | nil =>
    intro cur mx buf h
    simpa [tagsBytesAux] using h
  | cons p rest ih =>
    obtain ⟨k, v⟩ := p
    intro cur mx buf h
    rw [tagsBytesAux]
    split
    · exact h
    · rename_i hle
      apply ih
      by_cases hv : v.length > 0 <;> by_cases hc : cur ≤ mx <;>
        · simp only [hv, hc, if_true, if_false, List.length_append, List.length_cons,
            List.length_nil, reduceIte, maxTagLength, gt_iff_lt, not_lt] at hle ⊢
          omega

/-- C7 (amended).  `Tags.Set` fails with the invalid-name error exactly when
the key is empty or has a character outside `[A-Za-z0-9/_.-]` (first
conjunct: the source's byte-range test equals that character class); for a
valid key it fails with the too-long error exactly when the current encoded
length plus the pair's maximal encoded footprint `len(key)+len(value)+2`
exceeds the 511-octet ceiling — a conservative pre-check that can reject a
pair which would still fit, e.g. a valueless key (see the counterexample) —
and otherwise stores the encoded value.  Independently, `Tags.Bytes` never
produces more than 511 octets for any tag map, excess tags being silently
dropped. -/
theorem C7_set_and_ceiling (t : Tags) (k v : Str) :
    (validTag k = true ↔ (k ≠ [] ∧ ∀ c ∈ k,
      (65 ≤ c.toNat ∧ c.toNat ≤ 90) ∨ (97 ≤ c.toNat ∧ c.toNat ≤ 122) ∨
      (48 ≤ c.toNat ∧ c.toNat ≤ 57) ∨ c.toNat = 47 ∨ c.toNat = 95 ∨
      c.toNat = 46 ∨ c.toNat = 45)) ∧
    (validTag k = false → Tags.Set t k v = .error .invalidName) ∧
    (validTag k = true →
      Tags.Len t + k.length + (tagEncoder v).length + 2 > maxTagLength →
      Tags.Set t k v = .error .tooLong) ∧
    (validTag k = true →
      Tags.Len t + k.length + (tagEncoder v).length + 2 ≤ maxTagLength →
      Tags.Set t k v = .ok (tagsInsert t k (tagEncoder v))) ∧
    (Tags.Bytes t).length ≤ maxTagLength := by
  refine ⟨?_, ?_, ?_, ?_, ?_⟩
  · rw [validTag]
    by_cases hk : k.length < 1
    · have : k = [] := List.length_eq_zero.mp (by omega)
      subst this
      simp
    · have hne : k ≠ [] := by
        intro h0
        subst h0
        simp at hk
      simp only [hk, if_false, List.all_eq_true, hne, ne_eq, not_false_eq_true, true_and]
      refine forall_congr' fun c => forall_congr' fun _ => ?_
      simp only [decide_eq_true_eq]
      omega
  · intro h
    rw [Tags.Set, if_pos (by simp [h])]
  · intro h1 h2
    rw [Tags.Set, if_neg (by simp [h1])]
    simp only [if_pos h2]
  · intro h1 h2
    rw [Tags.Set, if_neg (by simp [h1])]
    simp only [if_neg (by omega : ¬ Tags.Len t + k.length + (tagEncoder v).length + 2 > maxTagLength)]
  · rw [Tags.Bytes]
    split
    · simp [maxTagLength]
    · exact tagsBytesAux_le t 0 t.length [] (by simp)

/-- Witness for C7 at `t = {}`, `k = "a"`, `v = ""`. -/
theorem C7_set_and_ceiling_witness :
    (validTag ['a'] = true) ∧
    (Tags.Len [] + (['a'] : Str).length + (tagEncoder []).length + 2 ≤ maxTagLength) ∧
    Tags.Set [] ['a'] [] = .ok (tagsInsert [] ['a'] (tagEncoder [])) ∧
    (Tags.Bytes []).length ≤ maxTagLength :=
  ⟨by decide, by decide,
    (C7_set_and_ceiling [] ['a'] []).2.2.2.1 (by decide) (by decide),
    (C7_set_and_ceiling [] ['a'] []).2.2.2.2⟩

/-! ## C10: Len against Bytes -/

theorem sourceLen_eq (s : Source) : Source.Len s = (sourceWrite s).length := by
  rw [Source.Len, sourceWrite]
  by_cases hi : s.ident.length > 0 <;> by_cases hh : s.host.length > 0 <;>
    simp only [hi, hh, if_true, if_false, reduceIte, List.length_append, List.length_cons,
      List.length_nil] <;>
    omega

theorem tagsWriteTo_length {t : Tags} (h : Tags.Bytes t ≠ []) :
    (tagsWriteTo t).length = Tags.Len t + 1 := by
  rw [tagsWriteTo, Tags.Len]
  have : ¬ (Tags.Bytes t).length = 0 := by
    simpa [List.length_eq_zero] using h
  simp [this]

/-- C10 (amended).  `Event.Len` returns exactly the octet count of
`Event.Bytes` for every event whose tag map (when non-nil) serializes
non-empty (a non-nil-but-empty or fully-truncated tag map is counted as 1
by `Len` but contributes nothing to `Bytes`; see the counterexample),
whose serialized form contains no CR/LF (which `Bytes` strips but `Len`
counts), and whose serialized form is within the 510-octet cap (beyond
which `Bytes` truncates). -/
theorem C10_len_bytes (e : Event)
    (htags : e.tags = none ∨ ∃ t, e.tags = some t ∧ Tags.Bytes t ≠ [])
    (hcrlf : ∀ c ∈ eventBytesRaw e, cutCR c = false)
    (hlen : (eventBytesRaw e).length ≤ maxLength) :
    Event.Len e = (Event.Bytes e).length := by
  have hb : Event.Bytes e = eventBytesRaw e := by
    rw [Event.Bytes]
    simp only [if_neg (by omega : ¬ (eventBytesRaw e).length > maxLength)]
    exact stripCRLF_eq_self hcrlf
  rw [hb, Event.Len, eventBytesRaw]
  have h1 : (match e.tags with
      | none => ([] : Str)
      | some t => tagsWriteTo t).length =
      (match e.tags with
      | none => 0
      | some t => Tags.Len t + 1) := by
    rcases htags with h0 | ⟨t, ht, hB⟩
    · rw [h0]
      rfl
    · rw [ht]
      exact tagsWriteTo_length hB
  have h2 : (match e.source with
      | none => ([] : Str)
      | some s => ':' :: sourceWrite s ++ [' ']).length =
      (match e.source with
      | none => 0
      | some s => Source.Len s + 2) := by
    cases e.source with
    | none => rfl
    | some s =>
      simp only [List.length_cons, List.length_append, List.length_singleton,
        List.length_nil, sourceLen_eq]
  have h3 : (if e.params.length > 0 then ' ' :: goJoin ' ' e.params else []).length =
      (if e.params.length > 0 then e.params.length + (e.params.map List.length).sum else 0) := by
    by_cases hp : e.params.length > 0
    · have hne : e.params ≠ [] := by
        intro h0
        rw [h0] at hp
        simp at hp
      simp only [hp, if_true, reduceIte, List.length_cons, length_goJoin hne]
      omega
    · simp [hp]
  have h4 : (if e.trailing.length > 0 || e.emptyTrailing then ' ' :: ':' :: e.trailing else []).length =
      (if e.trailing.length > 0 || e.emptyTrailing then e.trailing.length + 2 else 0) := by
    by_cases ht : e.trailing.length > 0 || e.emptyTrailing <;> simp [ht]
  simp only [List.length_append, h1, h2, h3, h4]

/-- Witness for C10 at a full-featured event
`:n!u@h PRIVMSG a b :hello` with tags `{k: v}`. -/
theorem C10_len_bytes_witness :
    Event.Len ⟨some ⟨['n'], ['u'], ['h']⟩, some [(['k'], ['v'])],
        ['P', 'R', 'I', 'V', 'M', 'S', 'G'], [['a'], ['b']], ['h', 'i'], false, false⟩ =
      (Event.Bytes ⟨some ⟨['n'], ['u'], ['h']⟩, some [(['k'], ['v'])],
        ['P', 'R', 'I', 'V', 'M', 'S', 'G'], [['a'], ['b']], ['h', 'i'], false, false⟩).length :=
  C10_len_bytes _ (Or.inr ⟨[(['k'], ['v'])], rfl, by decide⟩) (by decide) (by decide)

/-! ## C6: tag-section consumption and command extraction -/

/-- C6. The claim — matching the spec's algorithm — says that for a line
starting with `@` whose first space is at index ≥ 2, the tags are parsed
from the substring between `@` and that space, parsing advances past the
space, and the Command is then the upper-cased token of what remains up
to the next space, e.g. `"@a PING :x"` yields Command `"PING"`.  The
code, however, never resets `i` after the tag block (event.go line 66
re-slices `raw` but keeps the tag-space index), so for a tagged line
whose remainder does not begin with `:` the command is extracted from
the stale offset into the remainder: `"@a PING :x"` actually yields
Command `"NG"` (tags are still parsed correctly), and `"@abcd X"`
panics on the out-of-range slice `raw[5:]`.  When the remainder begins
with `:` the source section re-assigns `i`, so `"@ab :cd EF"` parses a
source and yields Command `"EF"` — also not the upper-cased first token
`":CD"` of the remainder. -/
theorem C6_tag_stale_command :
    ParseEvent ['@', 'a', ' ', 'P', 'I', 'N', 'G', ' ', ':', 'x'] =
      .ok ⟨none, some [(['a'], [])], ['N', 'G'], [], ['x'], false, false⟩ ∧
    (['N', 'G'] : Str) ≠
      goToUpper ((['P', 'I', 'N', 'G', ' ', ':', 'x'] : Str).takeWhile (· != ' ')) ∧
    ParseEvent ['@', 'a', 'b', 'c', 'd', ' ', 'X'] = .panic ∧
    ParseEvent ['@', 'a', 'b', ' ', ':', 'c', 'd', ' ', 'E', 'F'] =
      .ok ⟨some ⟨['c', 'd'], [], []⟩, some [(['a', 'b'], [])], ['E', 'F'], [], [], false,
        false⟩ := by
  decide

/-! ## C1: serialization/parsing round trip -/

theorem splitPT_nocolon {b : Str} (hb : ':' ∉ b) :
    splitParamsTrailing b = (goSplit ' ' b, [], false) := by
  rw [splitParamsTrailing, idx?_eq_none_iff.mpr hb]

theorem splitPT_colon0 (t : Str) :
    splitParamsTrailing (':' :: t) = ([], t, t.isEmpty) := by
  have h0 : idx? ':' (':' :: t) = some 0 := by
    simp [idx?]
  rw [splitParamsTrailing, h0]
  simp

theorem splitPT_space_marker (b t : Str) (hb : ':' ∉ b) (hbne : b ≠ [])
    (hlast : b.getLast? = some ' ') :
    splitParamsTrailing (b ++ ':' :: t) = (goSplit ' ' b.dropLast, t, t.isEmpty) := by
  have hlen : 0 < b.length := List.length_pos.mpr hbne
  have hget : (b ++ ':' :: t).get? (b.length - 1) = b.getLast? := by
    rw [List.get?_append (by omega), List.getLast?_eq_get?]
  rw [splitParamsTrailing, idx?_append_cons b t hb]
  dsimp only
  rw [if_neg (by omega), if_pos (by rw [hget, hlast]),
    List.take_append_of_le_length (by omega), ← List.dropLast_eq_take,
    drop_append_cons b ':' t]

theorem head?_append_left {l l' : Str} (h : l ≠ []) : (l ++ l').head? = l.head? := by
  cases l with
  | nil => exact absurd rfl h
  | cons a t => rfl

theorem mem_sourceWrite {x : Char} {s : Source} (hm : x ∈ sourceWrite s) :
    x ∈ s.name ∨ x = '!' ∨ x ∈ s.ident ∨ x = '@' ∨ x ∈ s.host := by
  rw [sourceWrite] at hm
  by_cases hi : s.ident.length > 0 <;> by_cases hh : s.host.length > 0 <;>
    simp only [hi, hh, if_true, if_false, reduceIte, List.append_nil, List.nil_append,
      List.mem_append, List.mem_cons] at hm <;> tauto

theorem not_mem_sourceWrite {x : Char} {s : Source} (h1 : x ∉ s.name) (h2 : x ∉ s.ident)
    (h3 : x ∉ s.host) (h4 : x ≠ '!') (h5 : x ≠ '@') : x ∉ sourceWrite s := by
  intro hm
  rcases mem_sourceWrite hm with h | h | h | h | h
  · exact h1 h
  · exact h4 h
  · exact h2 h
  · exact h5 h
  · exact h3 h

theorem sourceWrite_ne_nil {s : Source} (h : s.name ≠ []) : sourceWrite s ≠ [] := by
  rw [sourceWrite]
  intro h0
  rcases List.append_eq_nil.mp h0 with ⟨h1, -⟩
  rcases List.append_eq_nil.mp h1 with ⟨h2, -⟩
  exact h h2

/-- `ParseEvent` on a CR/LF-free line that starts with neither `@` nor `:`
goes straight to command extraction. -/
theorem ParseEvent_plain {w : Str} (htrim : trimCR w = w) (hlen : 2 ≤ w.length)
    (h1 : w.head? ≠ some '@') (h2 : w.head? ≠ some ':') :
    ParseEvent w =
      match idx? ' ' w with
      | none => .ok ⟨none, none, goToUpper w, [], [], false, false⟩
      | some j =>
        .ok ⟨none, none, goToUpper (w.take j), (splitParamsTrailing (w.drop (j + 1))).1,
          (splitParamsTrailing (w.drop (j + 1))).2.1,
          (splitParamsTrailing (w.drop (j + 1))).2.2, false⟩ := by
  have hwne : w ≠ [] := by
    intro h0
    rw [h0] at hlen
    simp at hlen
  obtain ⟨c0, t0, rfl⟩ := List.exists_cons_of_ne_nil hwne
  have hc0 : ¬ (c0 = ':') := by
    intro h0
    exact h2 (by rw [List.head?_cons, h0])
  unfold ParseEvent
  rw [htrim, if_neg (by simp only [List.length_cons] at hlen ⊢; omega), if_neg h1]
  simp only [List.head?_cons, if_neg hc0]
  unfold commandStage
  rw [if_neg (by omega)]
  simp only [List.drop_zero, Nat.zero_add, substr, List.drop_zero]

/-- `ParseEvent` on a CR/LF-free line `:source command…`: the source section
is consumed, then command extraction proceeds on the rest. -/
theorem ParseEvent_src {sw rest2 : Str} (hsw : ' ' ∉ sw) (hswne : sw ≠ [])
    (htrim : trimCR (':' :: (sw ++ ' ' :: rest2)) = ':' :: (sw ++ ' ' :: rest2)) :
    ParseEvent (':' :: (sw ++ ' ' :: rest2)) =
      match idx? ' ' rest2 with
      | none => .ok ⟨some (ParseSource sw), none, goToUpper rest2, [], [], false, false⟩
      | some j =>
        .ok ⟨some (ParseSource sw), none, goToUpper (rest2.take j),
          (splitParamsTrailing (rest2.drop (j + 1))).1,
          (splitParamsTrailing (rest2.drop (j + 1))).2.1,
          (splitParamsTrailing (rest2.drop (j + 1))).2.2, false⟩ := by
  have hspc : ' ' ∉ (':' :: sw : Str) := by
    simp only [List.mem_cons, not_or]
    exact ⟨by decide, hsw⟩
  have hidx : idx? ' ' (':' :: (sw ++ ' ' :: rest2)) = some ((':' :: sw).length) := by
    rw [← List.cons_append]
    exact idx?_append_cons _ rest2 hspc
  have hsl : 0 < sw.length := List.length_pos.mpr hswne
  have hsub : substr (':' :: (sw ++ ' ' :: rest2)) 1 (':' :: sw).length = sw := by
    rw [substr, ← List.cons_append, List.take_left]
    rfl
  have hdrop : (':' :: (sw ++ ' ' :: rest2)).drop ((':' :: sw).length + 1) = rest2 := by
    rw [← List.cons_append]
    exact drop_append_cons _ ' ' rest2
  have hB : (':' :: (sw ++ ' ' :: rest2) : Str) = ((':' :: sw) ++ [' ']) ++ rest2 := by
    simp
  have hsub2 : ∀ k, substr (':' :: (sw ++ ' ' :: rest2)) ((':' :: sw).length + 1)
      ((':' :: sw).length + 1 + k) = rest2.take k := by
    intro k
    rw [substr, hB,
      show (':' :: sw : Str).length + 1 + k = ((':' :: sw) ++ [' '] : Str).length + k by
        simp only [List.length_append, List.length_cons, List.length_singleton,
          List.length_nil],
      List.take_append,
      show (':' :: sw : Str).length + 1 = ((':' :: sw) ++ [' '] : Str).length by
        simp only [List.length_append, List.length_cons, List.length_singleton,
          List.length_nil],
      List.drop_left]
  have hdrop2 : ∀ k, (':' :: (sw ++ ' ' :: rest2) : Str).drop ((':' :: sw).length + 1 + k + 1) =
      rest2.drop (k + 1) := by
    intro k
    rw [hB,
      show (':' :: sw : Str).length + 1 + k + 1 = ((':' :: sw) ++ [' '] : Str).length + (k + 1) by
        simp only [List.length_append, List.length_cons, List.length_singleton,
          List.length_nil]
        omega,
      List.drop_append]
  unfold ParseEvent
  rw [htrim, if_neg (by simp only [List.length_cons, List.length_append]; omega),
    if_neg (by simp)]
  simp only [List.head?_cons, reduceIte, hidx]
  rw [if_neg (by simp only [List.length_cons]; omega)]
  rw [hsub]
  unfold commandStage
  rw [if_neg (by simp only [List.length_cons, List.length_append]; omega)]
  rw [hdrop]
  simp only [hsub2, hdrop2]

/-- The command/params/trailing stage of the parser inverts the
command/params/trailing stage of the serializer. -/
theorem tail_result (os : Option Source) (ot : Option Tags) (W cmd : Str) (ps : List Str)
    (tr : Str) (et : Bool)
    (hW : W = cmd ++ ((if ps.length > 0 then ' ' :: goJoin ' ' ps else []) ++
        (if tr.length > 0 || et then ' ' :: ':' :: tr else [])))
    (hc1 : cmd ≠ []) (hc2 : ' ' ∉ cmd) (hc3 : goToUpper cmd = cmd)
    (hps : ∀ p ∈ ps, p ≠ [] ∧ ' ' ∉ p ∧ ':' ∉ p)
    (het : et = true → tr = []) :
    (match idx? ' ' W with
     | none => PRes.ok ⟨os, ot, goToUpper W, [], [], false, false⟩
     | some j =>
       PRes.ok ⟨os, ot, goToUpper (W.take j), (splitParamsTrailing (W.drop (j + 1))).1,
         (splitParamsTrailing (W.drop (j + 1))).2.1,
         (splitParamsTrailing (W.drop (j + 1))).2.2, false⟩)
    = PRes.ok ⟨os, ot, cmd, ps, tr, et, false⟩ := by
  have hjoin : ':' ∉ goJoin ' ' ps :=
    not_mem_goJoin (by decide) (fun p hp => (hps p hp).2.2)
  by_cases hpp : ps.length > 0 <;> by_cases hma : (tr.length > 0 || et) = true
  · -- params and trailing marker
    rw [if_pos hpp, if_pos hma] at hW
    have hW' : W = cmd ++ ' ' :: (goJoin ' ' ps ++ ' ' :: ':' :: tr) := by
      rw [hW]
      simp
    have hidx : idx? ' ' W = some cmd.length := by
      rw [hW']
      exact idx?_append_cons cmd _ hc2
    rw [hidx]
    dsimp only
    have htake : W.take cmd.length = cmd := by
      rw [hW']
      exact List.take_left cmd _
    have hdrop : W.drop (cmd.length + 1) = goJoin ' ' ps ++ ' ' :: ':' :: tr := by
      rw [hW']
      exact drop_append_cons cmd ' ' _
    have hsegment : goJoin ' ' ps ++ ' ' :: ':' :: tr = (goJoin ' ' ps ++ [' ']) ++ ':' :: tr := by
      simp
    have hsplit : splitParamsTrailing (W.drop (cmd.length + 1)) = (ps, tr, tr.isEmpty) := by
      rw [hdrop, hsegment, splitPT_space_marker _ _
        (by
          simp only [List.mem_append, List.mem_singleton, not_or]
          exact ⟨hjoin, by decide⟩)
        (by simp)
        (List.getLast?_concat _),
        List.dropLast_concat,
        goSplit_goJoin (fun p hp => (hps p hp).2.1) (by
          intro h0
          rw [h0] at hpp
          simp at hpp)]
    have hie : tr.isEmpty = et := by
      cases et
      · have htr : tr ≠ [] := by
          intro h0
          rw [h0] at hma
          simp at hma
        simpa [List.isEmpty_iff] using htr
      · rw [het rfl]
        rfl
    rw [htake, hc3, hsplit, hie]
  · -- params, no trailing marker
    rw [if_pos hpp, if_neg (by simpa using hma)] at hW
    have hmaf : tr = [] ∧ et = false := by
      constructor
      · rcases (by simpa using hma : ¬ (0 < tr.length ∨ et = true)) with h0
        exact List.length_eq_zero.mp (by omega)
      · rcases (by simpa using hma : ¬ (0 < tr.length ∨ et = true)) with h0
        simpa using fun h => h0 (Or.inr h)
    have hW' : W = cmd ++ ' ' :: goJoin ' ' ps := by
      rw [hW]
      simp
    have hidx : idx? ' ' W = some cmd.length := by
      rw [hW']
      exact idx?_append_cons cmd _ hc2
    rw [hidx]
    dsimp only
    have htake : W.take cmd.length = cmd := by
      rw [hW']
      exact List.take_left cmd _
    have hdrop : W.drop (cmd.length + 1) = goJoin ' ' ps := by
      rw [hW']
      exact drop_append_cons cmd ' ' _
    have hsplit : splitParamsTrailing (W.drop (cmd.length + 1)) = (ps, [], false) := by
      rw [hdrop, splitPT_nocolon hjoin,
        goSplit_goJoin (fun p hp => (hps p hp).2.1) (by
          intro h0
          rw [h0] at hpp
          simp at hpp)]
    rw [htake, hc3, hsplit, hmaf.1, hmaf.2]
  · -- no params, trailing marker
    rw [if_neg hpp, if_pos hma] at hW
    have hps0 : ps = [] := by
      simpa [List.length_eq_zero] using hpp
    have hW' : W = cmd ++ ' ' :: (':' :: tr) := by
      rw [hW]
      simp
    have hidx : idx? ' ' W = some cmd.length := by
      rw [hW']
      exact idx?_append_cons cmd _ hc2
    rw [hidx]
    dsimp only
    have htake : W.take cmd.length = cmd := by
      rw [hW']
      exact List.take_left cmd _
    have hdrop : W.drop (cmd.length + 1) = ':' :: tr := by
      rw [hW']
      exact drop_append_cons cmd ' ' _
    have hie : tr.isEmpty = et := by
      cases et
      · have htr : tr ≠ [] := by
          intro h0
          rw [h0] at hma
          simp at hma
        simpa [List.isEmpty_iff] using htr
      · rw [het rfl]
        rfl
    rw [htake, hc3, hdrop, splitPT_colon0, hie, hps0]
  · -- no params, no trailing marker
    rw [if_neg hpp, if_neg (by simpa using hma)] at hW
    have hps0 : ps = [] := by
      simpa [List.length_eq_zero] using hpp
    have hmaf : tr = [] ∧ et = false := by
      constructor
      · rcases (by simpa using hma : ¬ (0 < tr.length ∨ et = true)) with h0
        exact List.length_eq_zero.mp (by omega)
      · rcases (by simpa using hma : ¬ (0 < tr.length ∨ et = true)) with h0
        simpa using fun h => h0 (Or.inr h)
    have hW' : W = cmd := by
      rw [hW]
      simp
    rw [hW', idx?_eq_none_iff.mpr hc2]
    dsimp only
    rw [hc3, hps0, hmaf.1, hmaf.2]

theorem crlf_tail {cmd : Str} {ps : List Str} {tr : Str} {et : Bool}
    (hc : ∀ c ∈ cmd, cutCR c = false)
    (hp : ∀ p ∈ ps, ∀ c ∈ p, cutCR c = false)
    (ht : ∀ c ∈ tr, cutCR c = false) :
    ∀ c ∈ cmd ++ ((if ps.length > 0 then ' ' :: goJoin ' ' ps else []) ++
      (if tr.length > 0 || et then ' ' :: ':' :: tr else [])), cutCR c = false := by
  intro c hm
  simp only [List.mem_append] at hm
  rcases hm with h | h | h
  · exact hc c h
  · split at h
    · rcases List.mem_cons.mp h with rfl | h2
      · decide
      · rcases mem_goJoin h2 with rfl | ⟨p, hp', hcp⟩
        · decide
        · exact hp p hp' c hcp
    · simp at h
  · split at h
    · rcases List.mem_cons.mp h with rfl | h2
      · decide
      · rcases List.mem_cons.mp h2 with rfl | h3
        · decide
        · exact ht c h3
    · simp at h

/-- C1 (amended).  Serialization/parsing round-trip for events *without
tags* (an event carrying tags does not round-trip because `Event.Bytes`
omits the `@` tag prefix and `Tags.Bytes` appends a trailing `;` — see the
counterexample): for every Event with valid fields — command non-empty,
space-free, upper-case-stable, not starting with `@`/`:`; params non-empty,
space- and colon-free; `EmptyTrailing` only with empty Trailing; source
fields conforming to the prefix grammar; no CR/LF anywhere; serialized
length in [2, 510] — parsing the serialization reproduces Source, Command,
Params, Trailing and EmptyTrailing exactly (in particular the `" :"`
marker is reproduced iff Trailing is non-empty or EmptyTrailing is set),
and re-serializing the parsed event gives back the same bytes. -/
theorem C1_roundtrip (e : Event)
    (htags : e.tags = none)
    (hc1 : e.command ≠ []) (hc2 : ' ' ∉ e.command) (hc3 : goToUpper e.command = e.command)
    (hc4 : e.command.head? ≠ some '@') (hc5 : e.command.head? ≠ some ':')
    (hc6 : ∀ c ∈ e.command, cutCR c = false)
    (hps : ∀ p ∈ e.params, p ≠ [] ∧ ' ' ∉ p ∧ ':' ∉ p ∧ ∀ c ∈ p, cutCR c = false)
    (htr : ∀ c ∈ e.trailing, cutCR c = false)
    (het : e.emptyTrailing = true → e.trailing = [])
    (hsrc : match e.source with
      | none => True
      | some s => s.name ≠ [] ∧ '!' ∉ s.name ∧ '@' ∉ s.name ∧ ' ' ∉ s.name ∧
          '@' ∉ s.ident ∧ ' ' ∉ s.ident ∧ '!' ∉ s.host ∧ ' ' ∉ s.host ∧
          (∀ c ∈ s.name, cutCR c = false) ∧ (∀ c ∈ s.ident, cutCR c = false) ∧
          (∀ c ∈ s.host, cutCR c = false))
    (hlen : 2 ≤ (eventBytesRaw e).length ∧ (eventBytesRaw e).length ≤ maxLength) :
    ParseEvent (Event.Bytes e) =
      .ok ⟨e.source, none, e.command, e.params, e.trailing, e.emptyTrailing, false⟩ ∧
    Event.Bytes ⟨e.source, none, e.command, e.params, e.trailing, e.emptyTrailing, false⟩ =
      Event.Bytes e := by
  obtain ⟨src, tags, cmd, ps, tr, et, sv⟩ := e
  dsimp only at htags hc1 hc2 hc3 hc4 hc5 hc6 hps htr het hsrc ⊢
  subst htags
  refine ⟨?_, rfl⟩
  have hps' : ∀ p ∈ ps, p ≠ [] ∧ ' ' ∉ p ∧ ':' ∉ p :=
    fun p hp => ⟨(hps p hp).1, (hps p hp).2.1, (hps p hp).2.2.1⟩
  have hpcr : ∀ p ∈ ps, ∀ c ∈ p, cutCR c = false := fun p hp => (hps p hp).2.2.2
  cases src with
  | none =>
    have hW : eventBytesRaw ⟨none, none, cmd, ps, tr, et, sv⟩ =
        cmd ++ ((if ps.length > 0 then ' ' :: goJoin ' ' ps else []) ++
          (if tr.length > 0 || et then ' ' :: ':' :: tr else [])) := by
      rw [eventBytesRaw]
      dsimp only
      simp only [List.nil_append, List.append_assoc]
    rw [hW] at hlen
    have hcr : ∀ c ∈ cmd ++ ((if ps.length > 0 then ' ' :: goJoin ' ' ps else []) ++
        (if tr.length > 0 || et then ' ' :: ':' :: tr else [])), cutCR c = false :=
      crlf_tail hc6 hpcr htr
    have hbytes : Event.Bytes ⟨none, none, cmd, ps, tr, et, sv⟩ =
        cmd ++ ((if ps.length > 0 then ' ' :: goJoin ' ' ps else []) ++
          (if tr.length > 0 || et then ' ' :: ':' :: tr else [])) := by
      rw [Event.Bytes]
      dsimp only
      rw [hW, if_neg (by omega)]
      exact stripCRLF_eq_self hcr
    have hhd1 : (cmd ++ ((if ps.length > 0 then ' ' :: goJoin ' ' ps else []) ++
        (if tr.length > 0 || et then ' ' :: ':' :: tr else []))).head? ≠ some '@' := by
      rw [head?_append_left hc1]
      exact hc4
    have hhd2 : (cmd ++ ((if ps.length > 0 then ' ' :: goJoin ' ' ps else []) ++
        (if tr.length > 0 || et then ' ' :: ':' :: tr else []))).head? ≠ some ':' := by
      rw [head?_append_left hc1]
      exact hc5
    rw [hbytes, ParseEvent_plain (trimCR_eq_self hcr) hlen.1 hhd1 hhd2]
    exact tail_result none none _ cmd ps tr et rfl hc1 hc2 hc3 hps' het
  | some s =>
    dsimp only at hsrc
    obtain ⟨hn, hn1, hn2, hn3, hi1, hi2, hx1, hx2, hcn, hci, hch⟩ := hsrc
    have hswsp : ' ' ∉ sourceWrite s := not_mem_sourceWrite hn3 hi2 hx2 (by decide) (by decide)
    have hswne : sourceWrite s ≠ [] := sourceWrite_ne_nil hn
    have hW : eventBytesRaw ⟨some s, none, cmd, ps, tr, et, sv⟩ =
        ':' :: (sourceWrite s ++ ' ' :: (cmd ++
          ((if ps.length > 0 then ' ' :: goJoin ' ' ps else []) ++
           (if tr.length > 0 || et then ' ' :: ':' :: tr else [])))) := by
      rw [eventBytesRaw]
      dsimp only
      simp only [List.nil_append, List.cons_append, List.append_assoc, List.singleton_append]
    rw [hW] at hlen
    have hcr : ∀ c ∈ ':' :: (sourceWrite s ++ ' ' :: (cmd ++
        ((if ps.length > 0 then ' ' :: goJoin ' ' ps else []) ++
         (if tr.length > 0 || et then ' ' :: ':' :: tr else [])))), cutCR c = false := by
      intro c hm
      rcases List.mem_cons.mp hm with rfl | hm2
      · decide
      rcases List.mem_append.mp hm2 with hm3 | hm4
      · rcases mem_sourceWrite hm3 with h | rfl | h | rfl | h
        · exact hcn c h
        · decide
        · exact hci c h
        · decide
        · exact hch c h
      rcases List.mem_cons.mp hm4 with rfl | hm5
      · decide
      · exact crlf_tail hc6 hpcr htr c hm5
    have hbytes : Event.Bytes ⟨some s, none, cmd, ps, tr, et, sv⟩ =
        ':' :: (sourceWrite s ++ ' ' :: (cmd ++
          ((if ps.length > 0 then ' ' :: goJoin ' ' ps else []) ++
           (if tr.length > 0 || et then ' ' :: ':' :: tr else [])))) := by
      rw [Event.Bytes]
      dsimp only
      rw [hW, if_neg (by omega)]
      exact stripCRLF_eq_self hcr
    rw [hbytes, ParseEvent_src hswsp hswne (trimCR_eq_self hcr),
      parseSource_write s hn hn1 hn2 hi1 hx1]
    exact tail_result (some s) none _ cmd ps tr et rfl hc1 hc2 hc3 hps' het

/-- Witness for C1 at the event `:n!u@h PING a :x`. -/
theorem C1_roundtrip_witness :
    ParseEvent (Event.Bytes ⟨some ⟨['n'], ['u'], ['h']⟩, none, ['P', 'I', 'N', 'G'],
        [['a']], ['x'], false, true⟩) =
      .ok ⟨some ⟨['n'], ['u'], ['h']⟩, none, ['P', 'I', 'N', 'G'], [['a']], ['x'], false, false⟩ ∧
    Event.Bytes ⟨some ⟨['n'], ['u'], ['h']⟩, none, ['P', 'I', 'N', 'G'], [['a']], ['x'],
        false, false⟩ =
      Event.Bytes ⟨some ⟨['n'], ['u'], ['h']⟩, none, ['P', 'I', 'N', 'G'], [['a']], ['x'],
        false, true⟩ :=
  C1_roundtrip ⟨some ⟨['n'], ['u'], ['h']⟩, none, ['P', 'I', 'N', 'G'], [['a']], ['x'], false, true⟩
    rfl (by decide) (by decide) (by decide) (by decide) (by decide) (by decide)
    (by decide) (by decide) (by decide) (by decide) (by decide)

end Girc
